import Mathlib

/-!
# Verification of the poster-tracker progress application

A shallow embedding of `src/poster-tracker.py` (a Streamlit + Postgres
progress tracker) and proofs of the specification's testable properties.

Modelling conventions:
* Python `dict`s (insertion ordered, unique string keys) are association
  lists `List (String × α)`; `assocGet` is `d.get(k)` / `d[k]`,
  `assocSet` is `d[k] = v` (overwrite in place, append when new),
  `assocErase` is `d.pop(k, None)`.
* Python JSON-ish values delivered by the database driver are `PyVal`.
  The standard-library call `json.loads` is modelled by its outcome: an
  oracle `loads : String → Option PyVal` (`none` = parse exception);
  theorems quantify over every oracle.
* The database table `artist_progress` is a `List Row`; SQL upsert /
  delete / truncate act on it.
* Machine-independent: Python ints are `Int`, counts are `Nat`.
-/

/-- A Python value as seen by the program (JSON-decoded database payloads
and in-memory structures).  Dict keys are strings, matching every dict the
program builds or reads from JSON. -/
inductive PyVal where
  | pynone : PyVal
  | pybool (b : Bool) : PyVal
  | pyint (n : Int) : PyVal
  | pystr (s : String) : PyVal
  | pylist (xs : List PyVal) : PyVal
  | pydict (d : List (String × PyVal)) : PyVal

/-- Python truthiness, `bool(x)`: `None`/`False`/`0`/`""`/`[]`/`{}` are
falsy, everything else truthy. -/
def pyTruthy : PyVal → Bool
  | .pynone => false
  | .pybool b => b
  | .pyint n => n != 0
  | .pystr s => s != ""
  | .pylist xs => !xs.isEmpty
  | .pydict d => !d.isEmpty

/-- `d.get(k)` on an association-list dict: first entry with the key. -/
def assocGet {α : Type} : List (String × α) → String → Option α
  | [], _ => none
  | (k', v) :: rest, k => if k' = k then some v else assocGet rest k

/-- `d[k] = v` on an association-list dict: overwrite the first entry with
the key in place, append when the key is new (Python insertion order). -/
def assocSet {α : Type} : List (String × α) → String → α → List (String × α)
  | [], k, v => [(k, v)]
  | (k', v') :: rest, k, v =>
      if k' = k then (k, v) :: rest else (k', v') :: assocSet rest k v

/-- `d.pop(k, None)`: remove the entry with the key, no error if absent. -/
def assocErase {α : Type} (d : List (String × α)) (k : String) : List (String × α) :=
  d.filter (fun e => !(e.1 == k))

/-- Characters Python treats as whitespace in `str.strip` and the regex
`\s` (ASCII range, the only ones that occur here). -/
def isSpaceChar (c : Char) : Bool :=
  c = ' ' || c = '\t' || c = '\n' || c = '\r' || c = '\x0b' || c = '\x0c'

/-- Python `str.strip()`: drop leading and trailing whitespace. -/
def pyStrip (s : String) : String :=
  String.mk (((s.toList.dropWhile isSpaceChar).reverse.dropWhile isSpaceChar).reverse)

/-- `re.sub(r"\s+", " ", s)`: collapse every maximal whitespace run to a
single space.  The flag records whether the previous character belonged
to a whitespace run already emitted as one space. -/
def collapseWSAux : Bool → List Char → List Char
  | _, [] => []
  | inRun, c :: rest =>
      if isSpaceChar c then
        if inRun then collapseWSAux true rest
        else ' ' :: collapseWSAux true rest
      else c :: collapseWSAux false rest

/-- `re.sub(r"\s+", " ", s)` on a character list. -/
def collapseWS (l : List Char) : List Char := collapseWSAux false l

/-- `str.lower()` (ASCII case fold, the labels compared here). -/
def pyLower (s : String) : String := String.mk (s.toList.map Char.toLower)

/-- `norm` (src line 56): strip, collapse internal whitespace, lowercase.
Used for case/whitespace-insensitive label comparison. -/
def norm (s : String) : String :=
  pyLower (String.mk (collapseWS (pyStrip s).toList))

/-- `VARIANTS` (src line 21): the single remaining variant. -/
def VARIANTS : List (String × String) := [("dikey", "Dikey")]

/-- `COLUMN_STEPS` (src line 26): the seven enumerated pipeline steps. -/
def COLUMN_STEPS : List (String × String) :=
  [("telif_analizi_yapildi", "Telif analizi yapıldı"),
   ("posterler_editlendi", "Posterler editlendi"),
   ("kalite_artirildi", "Kalite artırıldı"),
   ("urun_aciklamalari_olusturuldu", "Ürün açıklamaları oluşturuldu"),
   ("mockuplar_videolar_olusturuldu", "Mockuplar ve videolar oluşturuldu"),
   ("printify_yuklendi", "Printify'a yüklendi"),
   ("etsy_yuklendi", "Etsy'e yüklendi")]

/-- `empty_variant_steps` (src line 69): every enumerated step `False`. -/
def empty_variant_steps : List (String × Bool) :=
  COLUMN_STEPS.map (fun p => (p.1, false))

/-- The dataclass `TopicProgress` (src line 103). `variants` is the
nested dict variant-key → step-key → bool; `global_steps` is vestigial. -/
structure TopicProgress where
  id : String
  label : String
  order : Int
  global_steps : List (String × Bool)
  variants : List (String × List (String × Bool))
deriving Repr, DecidableEq

/-- `TopicProgress.new` (src line 112) with the `uuid.uuid4().hex`
generated id passed in as `item_id` (the only external randomness). -/
def TopicProgress.new (item_id : String) (label : String) (order : Int) : TopicProgress :=
  { id := item_id
    label := pyStrip label
    order := order
    global_steps := []
    variants := VARIANTS.map (fun v => (v.1, empty_variant_steps)) }

/-- One row of the `artist_progress` table, holding the values the driver
hands back to Python: `id`/`label` as text, `order_num` as an int, and the
two jsonb columns as decoded `PyVal`s.  `updated_at` is never read back
and is omitted. -/
structure Row where
  id : String
  label : String
  order_num : Int
  global_steps : PyVal
  variants : PyVal

/-- `_safe_json_to_dict` (src line 88): `None` and non-dict values become
`{}`; a string is parsed with `json.loads` (the `loads` oracle, `none`
modelling a parse exception) and kept only when it yields a dict. -/
def safe_json_to_dict (loads : String → Option PyVal) : PyVal → List (String × PyVal)
  | .pynone => []
  | .pydict d => d
  | .pystr s =>
      match loads s with
      | some (.pydict d) => d
      | _ => []
  | _ => []

/-- `steps_in.get(sk, False)` then `bool(...)` (src line 151): look a step
up in the stored dict, defaulting to `False`, and apply truthiness. -/
def stepFromStored (steps_in : List (String × PyVal)) (sk : String) : Bool :=
  match assocGet steps_in sk with
  | some v => pyTruthy v
  | none => false

/-- The inner loop of `load_data` (src lines 149-151): start from
`empty_variant_steps` and overwrite every enumerated key from storage. -/
def loadSteps (steps_in : List (String × PyVal)) : List (String × Bool) :=
  COLUMN_STEPS.foldl (fun steps p => assocSet steps p.1 (stepFromStored steps_in p.1))
    empty_variant_steps

/-- `v_in.get(vk, {})` with the `isinstance(steps_in, dict)` guard
(src lines 146-148). -/
def storedVariantDict (v_in : List (String × PyVal)) (vk : String) :
    List (String × PyVal) :=
  match assocGet v_in vk with
  | some (.pydict d) => d
  | _ => []

/-- Reconstruction of one `TopicProgress` from a row (src lines 135-160):
id and label are stripped, step data is restricted to the enumerated
variant and step keys, the vestigial `global_steps` is truthified as-is. -/
def loadTopic (loads : String → Option PyVal) (r : Row) : String × TopicProgress :=
  let item_id := pyStrip r.id
  let g_in := safe_json_to_dict loads r.global_steps
  let v_in := safe_json_to_dict loads r.variants
  (item_id,
   { id := item_id
     label := pyStrip r.label
     order := r.order_num
     global_steps := g_in.map (fun e => (e.1, pyTruthy e.2))
     variants := VARIANTS.map (fun v => (v.1, loadSteps (storedVariantDict v_in v.1))) })

/-- `load_data` (src line 126): fold every row into the result dict; a
later row with the same (stripped) id overwrites an earlier one, as the
Python `data[item_id] = ...` assignment does. -/
def load_data (loads : String → Option PyVal) (rows : List Row) :
    List (String × TopicProgress) :=
  rows.foldl (fun data r => assocSet data (loadTopic loads r).1 (loadTopic loads r).2) []

/-- Encoding of the in-memory `variants` dict as the jsonb value the
driver returns after `json.dumps` + `cast(... as jsonb)` round-trips it
through the store (src lines 170, 188). -/
def variantsToPyVal (variants : List (String × List (String × Bool))) : PyVal :=
  .pydict (variants.map (fun v => (v.1, .pydict (v.2.map (fun s => (s.1, .pybool s.2))))))

/-- The row written for one topic by the upsert in `save_data`
(src lines 168-190): `global_steps` is always the empty object. -/
def topicRow (ap : TopicProgress) : Row :=
  { id := ap.id
    label := ap.label
    order_num := ap.order
    global_steps := .pydict []
    variants := variantsToPyVal ap.variants }

/-- `insert ... on conflict (id) do update` for one row: replace the rows
with the same primary key, append when the key is new. -/
def upsertRow (store : List Row) (r : Row) : List Row :=
  if store.any (fun x => x.id == r.id) then
    store.map (fun x => if x.id == r.id then r else x)
  else store ++ [r]

/-- `save_data` (src line 165): upsert a row for every topic in the dict
(in dict-value order) into the store. -/
def save_data (store : List Row) (data : List TopicProgress) : List Row :=
  data.foldl (fun st ap => upsertRow st (topicRow ap)) store

/-- `delete_item_db` (src line 194): `delete from artist_progress where
id = :id` — removes exactly the rows with that id, no error when none
match. -/
def delete_item_db (store : List Row) (item_id : String) : List Row :=
  store.filter (fun r => !(r.id == item_id))

/-- `truncate_all_db` (src line 201): remove every row. -/
def truncate_all_db (_store : List Row) : List Row := []

/-- `ap.variants.get(vk, {}).get(sk, False)` (src line 215). -/
def getVariantStep (variants : List (String × List (String × Bool)))
    (vk sk : String) : Bool :=
  match assocGet variants vk with
  | some steps => (assocGet steps sk).getD false
  | none => false

/-- `calc_done_total` (src line 209): count done steps against the fixed
variant × step grid. -/
def calc_done_total (ap : TopicProgress) : Nat × Nat :=
  VARIANTS.foldl
    (fun dt v =>
      COLUMN_STEPS.foldl
        (fun dt s =>
          if getVariantStep ap.variants v.1 s.1 then (dt.1 + 1, dt.2 + 1)
          else (dt.1, dt.2 + 1))
        dt)
    (0, 0)

/-- Helper: a pass of the inner step loop keeps done ≤ total and adds the
step count to the total. -/
theorem stepFold_facts (f : String → Bool) :
    ∀ (steps : List (String × String)) (dt : Nat × Nat), dt.1 ≤ dt.2 →
      (steps.foldl
          (fun dt s => if f s.1 then (dt.1 + 1, dt.2 + 1) else (dt.1, dt.2 + 1)) dt).1
        ≤ (steps.foldl
          (fun dt s => if f s.1 then (dt.1 + 1, dt.2 + 1) else (dt.1, dt.2 + 1)) dt).2
      ∧ (steps.foldl
          (fun dt s => if f s.1 then (dt.1 + 1, dt.2 + 1) else (dt.1, dt.2 + 1)) dt).2
        = dt.2 + steps.length
  | [], dt, h => ⟨h, rfl⟩
  | s :: rest, dt, h => by
      simp only [List.foldl]
      have h' : (if f s.1 then (dt.1 + 1, dt.2 + 1) else (dt.1, dt.2 + 1)).1
          ≤ (if f s.1 then (dt.1 + 1, dt.2 + 1) else (dt.1, dt.2 + 1)).2 := by
        split_ifs <;> simp <;> omega
      obtain ⟨h1, h2⟩ := stepFold_facts f rest
        (if f s.1 then (dt.1 + 1, dt.2 + 1) else (dt.1, dt.2 + 1)) h'
      refine ⟨h1, ?_⟩
      rw [h2]
      split_ifs <;> simp [List.length_cons] <;> omega

/-- Helper: `calc_done_total` always reports total 7 and done ≤ 7. -/
theorem calc_done_total_facts (ap : TopicProgress) :
    (calc_done_total ap).1 ≤ (calc_done_total ap).2 ∧ (calc_done_total ap).2 = 7 := by
  have h := stepFold_facts (fun sk => getVariantStep ap.variants "dikey" sk)
    COLUMN_STEPS (0, 0) (Nat.le_refl 0)
  simpa [calc_done_total, VARIANTS] using h

/-- C1: for every topic, whatever its variants mapping holds (missing
variant or step keys included), `calc_done_total` returns `(done, total)`
with `done ≤ total` and `total = 7` (one variant × seven step keys). -/
theorem claim_C1_done_le_total (ap : TopicProgress) :
    (calc_done_total ap).1 ≤ (calc_done_total ap).2 ∧ (calc_done_total ap).2 = 7 :=
  calc_done_total_facts ap


/-- Lookup of a freshly set key. -/
theorem assocGet_assocSet_self {α : Type} (d : List (String × α)) (k : String) (v : α) :
    assocGet (assocSet d k v) k = some v := by
  induction d with
  | nil => simp [assocSet, assocGet]
  | cons e rest ih =>
      rcases e with ⟨k₁, v₁⟩
      by_cases h : k₁ = k
      · simp [assocSet, assocGet, h]
      · simp [assocSet, assocGet, h, ih]

/-- Setting one key leaves lookups of other keys unchanged. -/
theorem assocGet_assocSet_ne {α : Type} (d : List (String × α)) (k k' : String) (v : α)
    (h : k' ≠ k) : assocGet (assocSet d k v) k' = assocGet d k' := by
  have hk : ¬(k = k') := fun h' => h h'.symm
  induction d with
  | nil =>
      simp only [assocSet, assocGet]
      rw [if_neg hk]
  | cons e rest ih =>
      rcases e with ⟨k₁, v₁⟩
      by_cases he : k₁ = k
      · subst he
        simp only [assocSet, if_pos rfl, assocGet]
        rw [if_neg hk, if_neg hk]
      · simp only [assocSet, if_neg he, assocGet]
        by_cases he' : k₁ = k'
        · rw [if_pos he', if_pos he']
        · rw [if_neg he', if_neg he', ih]

/-- Every entry of `assocSet d k v` is an old entry or the new pair. -/
theorem mem_assocSet {α : Type} (d : List (String × α)) (k : String) (v : α)
    (e : String × α) : e ∈ assocSet d k v → e ∈ d ∨ e = (k, v) := by
  induction d with
  | nil => intro he; simpa [assocSet] using he
  | cons e' rest ih =>
      intro he
      rcases e' with ⟨k₁, v₁⟩
      by_cases h : k₁ = k
      · rw [assocSet, if_pos h] at he
        rcases List.mem_cons.mp he with he | he
        · right; exact he
        · left; exact List.mem_cons_of_mem _ he
      · rw [assocSet, if_neg h] at he
        rcases List.mem_cons.mp he with he | he
        · left; exact he ▸ List.mem_cons_self _ _
        · rcases ih he with h' | h'
          · left; exact List.mem_cons_of_mem _ h'
          · right; exact h'


/-- Erasing a key leaves lookups of other keys unchanged. -/
theorem assocGet_assocErase_ne {α : Type} (d : List (String × α)) (k k' : String)
    (h : k' ≠ k) : assocGet (assocErase d k) k' = assocGet d k' := by
  induction d with
  | nil => simp [assocErase, assocGet]
  | cons e rest ih =>
      rcases e with ⟨k₁, v₁⟩
      by_cases he : k₁ = k
      · rw [assocErase, List.filter_cons]
        rw [if_neg (by simpa using he)]
        show assocGet (assocErase rest k) k' = assocGet ((k₁, v₁) :: rest) k'
        rw [ih, assocGet, if_neg (fun h' => h (he ▸ h').symm)]
      · rw [assocErase, List.filter_cons]
        rw [if_pos (by simpa using he)]
        show assocGet ((k₁, v₁) :: assocErase rest k) k' = assocGet ((k₁, v₁) :: rest) k'
        rw [assocGet, assocGet, ih]

/-- The erased key is gone. -/
theorem assocGet_assocErase_self {α : Type} (d : List (String × α)) (k : String) :
    assocGet (assocErase d k) k = none := by
  induction d with
  | nil => simp [assocErase, assocGet]
  | cons e rest ih =>
      rcases e with ⟨k₁, v₁⟩
      by_cases he : k₁ = k
      · rw [assocErase, List.filter_cons]
        rw [if_neg (by simpa using he)]
        exact ih
      · rw [assocErase, List.filter_cons]
        rw [if_pos (by simpa using he)]
        show assocGet ((k₁, v₁) :: assocErase rest k) k = none
        rw [assocGet, if_neg he]
        exact ih

/-- Every entry of the dict built by `load_data` comes from some row. -/
theorem mem_load_data_aux (loads : String → Option PyVal) :
    ∀ (rows : List Row) (acc : List (String × TopicProgress)) (e : String × TopicProgress),
      e ∈ rows.foldl
        (fun data r => assocSet data (loadTopic loads r).1 (loadTopic loads r).2) acc →
      e ∈ acc ∨ ∃ r ∈ rows, e = loadTopic loads r
  | [], acc, e, h => Or.inl h
  | r :: rest, acc, e, h => by
      simp only [List.foldl] at h
      rcases mem_load_data_aux loads rest _ e h with h' | h'
      · rcases mem_assocSet _ _ _ _ h' with h'' | h''
        · exact Or.inl h''
        · exact Or.inr ⟨r, List.mem_cons_self _ _, by rw [h'']⟩
      · rcases h' with ⟨r', hr', he'⟩
        exact Or.inr ⟨r', List.mem_cons_of_mem _ hr', he'⟩

/-- Every entry of the dict built by `load_data` comes from some row. -/
theorem mem_load_data (loads : String → Option PyVal) (rows : List Row)
    (e : String × TopicProgress) (he : e ∈ load_data loads rows) :
    ∃ r ∈ rows, e = loadTopic loads r := by
  rcases mem_load_data_aux loads rows [] e he with h | h
  · simp at h
  · exact h

/-- A key that is the stripped id of no row is absent from the load. -/
theorem assocGet_load_data_none_aux (loads : String → Option PyVal) :
    ∀ (rows : List Row) (acc : List (String × TopicProgress)) (k : String),
      (∀ r ∈ rows, pyStrip r.id ≠ k) → assocGet acc k = none →
      assocGet (rows.foldl
        (fun data r => assocSet data (loadTopic loads r).1 (loadTopic loads r).2) acc) k
        = none
  | [], acc, k, _, hacc => hacc
  | r :: rest, acc, k, hk, hacc => by
      simp only [List.foldl]
      refine assocGet_load_data_none_aux loads rest _ k
        (fun r' hr' => hk r' (List.mem_cons_of_mem _ hr')) ?_
      rw [assocGet_assocSet_ne]
      · exact hacc
      · exact fun h => hk r (List.mem_cons_self _ _) (by simpa [loadTopic] using h.symm)

/-- A key that is the stripped id of no row is absent from the load. -/
theorem assocGet_load_data_none (loads : String → Option PyVal) (rows : List Row)
    (k : String) (hk : ∀ r ∈ rows, pyStrip r.id ≠ k) :
    assocGet (load_data loads rows) k = none :=
  assocGet_load_data_none_aux loads rows [] k hk rfl

/-- `loadSteps` writes exactly the enumerated step keys, in order, each
taken from storage with default `False`. -/
theorem loadSteps_eq (si : List (String × PyVal)) :
    loadSteps si = COLUMN_STEPS.map (fun p => (p.1, stepFromStored si p.1)) := rfl

/-- Looking an enumerated step key up in a loaded step dict. -/
theorem assocGet_loadSteps (si : List (String × PyVal)) (sk : String)
    (hsk : sk ∈ COLUMN_STEPS.map Prod.fst) :
    assocGet (loadSteps si) sk = some (stepFromStored si sk) := by
  rw [loadSteps_eq]
  fin_cases hsk <;> rfl

/-- Looking up in a value-mapped dict. -/
theorem assocGet_map_val {α β : Type} (f : α → β) (d : List (String × α)) (k : String) :
    assocGet (d.map (fun e => (e.1, f e.2))) k = (assocGet d k).map f := by
  induction d with
  | nil => rfl
  | cons e rest ih =>
      by_cases h : e.1 = k
      · simp [assocGet, h]
      · simp [assocGet, h, ih]

/-- C5: `load_data` is total on the steps payload: any value of the
`variants` column that is not a dict (and is not a string that parses to
one) is coerced to the empty mapping; a step key absent from the stored
dict loads as `false`; and every loaded topic's variants are exactly the
single enumerated variant mapping each of the seven enumerated step keys
(unknown stored keys dropped) to the truthiness of its stored entry,
default `false`. -/
theorem claim_C5_defensive_load (loads : String → Option PyVal) (rows : List Row) :
    (∀ x : PyVal, (∀ d, x ≠ .pydict d) →
        (∀ s d, x = .pystr s → loads s ≠ some (.pydict d)) →
        safe_json_to_dict loads x = [])
    ∧ (∀ (si : List (String × PyVal)) (sk : String),
        assocGet si sk = none → stepFromStored si sk = false)
    ∧ ∀ e ∈ load_data loads rows, ∃ r ∈ rows,
        pyStrip r.id = e.1
        ∧ e.2.variants = [("dikey", COLUMN_STEPS.map (fun p =>
            (p.1, stepFromStored
              (storedVariantDict (safe_json_to_dict loads r.variants) "dikey") p.1)))] := by
  refine ⟨?_, ?_, ?_⟩
  · intro x hd hs
    cases x with
    | pynone => rfl
    | pybool b => rfl
    | pyint n => rfl
    | pylist xs => rfl
    | pydict d => exact absurd rfl (hd d)
    | pystr s =>
        show (match loads s with
          | some (.pydict d) => d
          | _ => []) = []
        rcases h : loads s with _ | v
        · rfl
        · cases v with
          | pydict d => exact absurd h (hs s d rfl)
          | pynone => rfl
          | pybool b => rfl
          | pyint n => rfl
          | pystr s' => rfl
          | pylist xs => rfl
  · intro si sk h
    unfold stepFromStored
    rw [h]
  · intro e he
    rcases mem_load_data loads rows e he with ⟨r, hr, he'⟩
    refine ⟨r, hr, ?_, ?_⟩
    · rw [he']
      rfl
    · rw [he']
      show [("dikey",
          loadSteps (storedVariantDict (safe_json_to_dict loads r.variants) "dikey"))] = _
      rw [loadSteps_eq]

/-- A concrete malformed row: the `variants` column holds the number 3. -/
def exBadRow : Row :=
  { id := "a", label := "A", order_num := 1, global_steps := .pydict [], variants := .pyint 3 }

/-- Witness for C5 at a concrete malformed row and failing parse oracle:
the payload coerces to the empty mapping, a missing key loads as `false`,
and the loaded topic's variants are pinned exactly. -/
theorem claim_C5_witness :
    safe_json_to_dict (fun _ => none) (.pyint 3) = []
    ∧ stepFromStored [] "telif_analizi_yapildi" = false
    ∧ ∃ r ∈ [exBadRow], pyStrip r.id = (loadTopic (fun _ => none) exBadRow).1
        ∧ (loadTopic (fun _ => none) exBadRow).2.variants
          = [("dikey", COLUMN_STEPS.map (fun p =>
              (p.1, stepFromStored
                (storedVariantDict (safe_json_to_dict (fun _ => none) r.variants) "dikey")
                p.1)))] := by
  obtain ⟨h1, h2, h3⟩ := claim_C5_defensive_load (fun _ => none) [exBadRow]
  exact ⟨h1 (.pyint 3) (fun d h => by cases h) (fun s d h => by cases h),
    h2 [] "telif_analizi_yapildi" rfl,
    h3 (loadTopic (fun _ => none) exBadRow) (by simp [load_data, List.foldl, assocSet])⟩

/-- C9: deleting a row by id removes exactly the rows with that id (so the
id is absent from a subsequent load, given the stored ids are stripped, as
every id the program writes is); deleting an id with no matching row
leaves the store unchanged, raising no error, and delete is idempotent. -/
theorem claim_C9_delete_idempotent (store : List Row) (item_id : String)
    (loads : String → Option PyVal) :
    (∀ r ∈ delete_item_db store item_id, r ∈ store ∧ r.id ≠ item_id)
    ∧ ((∀ r ∈ store, pyStrip r.id = r.id) →
        assocGet (load_data loads (delete_item_db store item_id)) item_id = none)
    ∧ ((∀ r ∈ store, r.id ≠ item_id) → delete_item_db store item_id = store)
    ∧ delete_item_db (delete_item_db store item_id) item_id
        = delete_item_db store item_id := by
  have hmem : ∀ r ∈ delete_item_db store item_id, r ∈ store ∧ r.id ≠ item_id := by
    intro r hr
    obtain ⟨h1, h2⟩ := List.mem_filter.mp hr
    exact ⟨h1, by simpa using h2⟩
  refine ⟨hmem, ?_, ?_, ?_⟩
  · intro hstrip
    refine assocGet_load_data_none loads _ item_id (fun r hr => ?_)
    obtain ⟨h1, h2⟩ := hmem r hr
    rw [hstrip r h1]
    exact h2
  · intro hnone
    refine List.filter_eq_self.mpr (fun r hr => ?_)
    simpa using hnone r hr
  · refine List.filter_eq_self.mpr (fun r hr => ?_)
    simpa using (hmem r hr).2


/-- Witness for C9: concrete store, deleting an id that is present and an
id that is absent, with the strip hypothesis discharged. -/
theorem claim_C9_witness :
    assocGet (load_data (fun _ => none) (delete_item_db [exBadRow] "a")) "a" = none
    ∧ delete_item_db [exBadRow] "b" = [exBadRow] := by
  obtain ⟨-, h2, -, -⟩ := claim_C9_delete_idempotent [exBadRow] "a" (fun _ => none)
  obtain ⟨-, -, h3, -⟩ := claim_C9_delete_idempotent [exBadRow] "b" (fun _ => none)
  exact ⟨h2 (by decide), h3 (by decide)⟩

/-- Result of the delete-confirm handler (src lines 445-456): the new
store, the new in-memory dict, and whether `save_data` was invoked. -/
structure DeleteOutcome where
  store : List Row
  data : List (String × TopicProgress)
  didSave : Bool

/-- The delete-confirm handler (src lines 445-456): `delete_item_db` on
the store and `data.pop(item_id, None)` in memory; the handler contains
no `save_data` call, so `didSave` is `false`. -/
def delete_confirm_action (store : List Row) (data : List (String × TopicProgress))
    (item_id : String) : DeleteOutcome :=
  { store := delete_item_db store item_id
    data := assocErase data item_id
    didSave := false }

/-- C10: deleting a topic is a pure frame operation: every other topic's
entry (its `order` value included) is untouched in memory and in the
store, no write rewrites the survivors, so non-contiguous ranks persist
until the next reorder. -/
theorem claim_C10_delete_frame (store : List Row) (data : List (String × TopicProgress))
    (item_id : String) :
    (∀ k, k ≠ item_id →
        assocGet (delete_confirm_action store data item_id).data k = assocGet data k)
    ∧ assocGet (delete_confirm_action store data item_id).data item_id = none
    ∧ (∀ r, r ∈ (delete_confirm_action store data item_id).store ↔
        (r ∈ store ∧ r.id ≠ item_id))
    ∧ (delete_confirm_action store data item_id).didSave = false := by
  refine ⟨?_, ?_, ?_, rfl⟩
  · intro k hk
    exact assocGet_assocErase_ne data item_id k hk
  · exact assocGet_assocErase_self data item_id
  · intro r
    constructor
    · intro hr
      obtain ⟨h1, h2⟩ := List.mem_filter.mp hr
      exact ⟨h1, by simpa using h2⟩
    · intro ⟨h1, h2⟩
      exact List.mem_filter.mpr ⟨h1, by simpa using h2⟩

/-- A concrete topic whose order leaves a gap after a deletion. -/
def exTopicB : TopicProgress :=
  { id := "b", label := "B", order := 3, global_steps := [],
    variants := [("dikey", empty_variant_steps)] }

/-- Witness for C10: a two-topic dict; after deleting "a", topic "b"
keeps its (now non-contiguous) order 3. -/
theorem claim_C10_witness :
    assocGet (delete_confirm_action [exBadRow] [("a", TopicProgress.new "a" "A" 1), ("b", exTopicB)] "a").data "b"
      = assocGet [("a", TopicProgress.new "a" "A" 1), ("b", exTopicB)] "b"
    ∧ (delete_confirm_action [exBadRow] [("a", TopicProgress.new "a" "A" 1), ("b", exTopicB)] "a").didSave = false := by
  obtain ⟨h1, -, -, h4⟩ :=
    claim_C10_delete_frame [exBadRow] [("a", TopicProgress.new "a" "A" 1), ("b", exTopicB)] "a"
  exact ⟨h1 "b" (by decide), h4⟩

/-- Decoding the saved `variants` payload step-by-step agrees with the
in-memory step lookup `ap.variants.get(vk, {}).get(sk, False)`. -/
theorem stepFromStored_variantsToPyVal (variants : List (String × List (String × Bool)))
    (vk sk : String) (loads : String → Option PyVal) :
    stepFromStored (storedVariantDict (safe_json_to_dict loads (variantsToPyVal variants)) vk) sk
      = getVariantStep variants vk sk := by
  show stepFromStored (storedVariantDict
    (variants.map (fun v => (v.1, PyVal.pydict (v.2.map (fun s => (s.1, PyVal.pybool s.2)))))) vk) sk = _
  unfold storedVariantDict getVariantStep
  rw [assocGet_map_val (fun steps => PyVal.pydict (steps.map (fun s => (s.1, PyVal.pybool s.2)))) variants vk]
  cases h : assocGet variants vk with
  | none => rfl
  | some S =>
      show stepFromStored (S.map (fun s => (s.1, PyVal.pybool s.2))) sk = (assocGet S sk).getD false
      unfold stepFromStored
      rw [assocGet_map_val (fun b => PyVal.pybool b) S sk]
      cases assocGet S sk with
      | none => rfl
      | some b => rfl

/-- A topic whose label carries a trailing space. -/
def exTopicPad : TopicProgress :=
  { id := "x", label := "a ", order := 1, global_steps := [], variants := [] }

/-- Counterexample to C2 as stated: saving a topic whose label ends in a
space and loading it back yields a different label, because `load_data`
strips the stored label (src line 137).  So the round trip is not the
identity for every topic. -/
theorem claim_C2_counterexample :
    ((assocGet (load_data (fun _ => none) (save_data [] [exTopicPad])) "x").map
        TopicProgress.label) ≠ some exTopicPad.label := by
  decide

/-- C2 (amended): for every topic whose id and label are already
whitespace-stripped — as holds for every topic the program creates —
saving then loading restores the label, the order and all seven
enumerated step booleans, whatever extraneous or missing keys the
topic's variants mapping has. -/
theorem claim_C2_roundtrip_amended (loads : String → Option PyVal) (T : TopicProgress)
    (hid : pyStrip T.id = T.id) (hlabel : pyStrip T.label = T.label) :
    ∃ t, assocGet (load_data loads (save_data [] [T])) T.id = some t
      ∧ t.label = T.label ∧ t.order = T.order
      ∧ ∀ p ∈ COLUMN_STEPS, getVariantStep t.variants "dikey" p.1
          = getVariantStep T.variants "dikey" p.1 := by
  have hsave : save_data [] [T] = [topicRow T] := rfl
  have hload : load_data loads [topicRow T]
      = [(pyStrip T.id, (loadTopic loads (topicRow T)).2)] := rfl
  rw [hsave, hload, hid]
  refine ⟨(loadTopic loads (topicRow T)).2, ?_, hlabel, rfl, ?_⟩
  · show (if T.id = T.id then some (loadTopic loads (topicRow T)).2 else none) = _
    rw [if_pos rfl]
  · intro p hp
    have hsk : p.1 ∈ COLUMN_STEPS.map Prod.fst := List.mem_map_of_mem Prod.fst hp
    show getVariantStep
      [("dikey", loadSteps (storedVariantDict (safe_json_to_dict loads (topicRow T).variants) "dikey"))]
      "dikey" p.1 = _
    unfold getVariantStep
    rw [show assocGet
        [("dikey", loadSteps (storedVariantDict (safe_json_to_dict loads (topicRow T).variants) "dikey"))]
        "dikey" = some (loadSteps (storedVariantDict (safe_json_to_dict loads (topicRow T).variants) "dikey"))
      from rfl]
    show (assocGet (loadSteps (storedVariantDict (safe_json_to_dict loads (topicRow T).variants) "dikey")) p.1).getD false
      = match assocGet T.variants "dikey" with
        | some steps => (assocGet steps p.1).getD false
        | none => false
    rw [assocGet_loadSteps _ _ hsk]
    show stepFromStored (storedVariantDict (safe_json_to_dict loads (variantsToPyVal T.variants)) "dikey") p.1 = _
    rw [stepFromStored_variantsToPyVal]
    rfl

/-- A topic with an extraneous step key, a missing enumerated key and a
true step, exercising the round trip. -/
def exTopicMix : TopicProgress :=
  { id := "y", label := "B", order := 2, global_steps := [],
    variants := [("dikey", [("posterler_editlendi", true), ("unknown_step", true)])] }

/-- Witness for the amended C2 at a concrete topic with extraneous and
missing step keys. -/
theorem claim_C2_witness :
    ∃ t, assocGet (load_data (fun _ => none) (save_data [] [exTopicMix])) exTopicMix.id = some t
      ∧ t.label = exTopicMix.label ∧ t.order = exTopicMix.order
      ∧ ∀ p ∈ COLUMN_STEPS, getVariantStep t.variants "dikey" p.1
          = getVariantStep exTopicMix.variants "dikey" p.1 :=
  claim_C2_roundtrip_amended (fun _ => none) exTopicMix (by decide) (by decide)

/-- The first loop of `apply_order_from_id_list` (src lines 221-226):
walk `ordered_ids`, keep ids that are topic keys and not yet seen.
Returns the kept list and the final `seen` set (as a list). -/
def firstPass (keys : List String) : List String → List String → List String × List String
  | seen, [] => ([], seen)
  | seen, i :: rest =>
      if keys.contains i && !(seen.contains i) then
        ((i :: (firstPass keys (i :: seen) rest).1), (firstPass keys (i :: seen) rest).2)
      else firstPass keys seen rest

/-- The merged id sequence of `apply_order_from_id_list` (src lines
221-229): the deduplicated client ids followed by the topic ids the
client list missed, in mapping iteration order. -/
def newOrderList (data : List (String × TopicProgress)) (ordered_ids : List String) :
    List String :=
  (firstPass (data.map Prod.fst) [] ordered_ids).1
    ++ (data.map Prod.fst).filter
        (fun i => !((firstPass (data.map Prod.fst) [] ordered_ids).2.contains i))

/-- The rank-assignment loop of `apply_order_from_id_list` (src lines
231-235): give the id at 1-based position `idx` order `idx`, flag
`changed` when any stored order differed.  The `none` branch is
unreachable for the list the caller builds (every id is a key; Python
would raise `KeyError` otherwise). -/
def rankPass : List (String × TopicProgress) → List String → Int →
    List (String × TopicProgress) × Bool
  | data, [], _ => (data, false)
  | data, i :: rest, idx =>
      match assocGet data i with
      | none => rankPass data rest (idx + 1)
      | some t =>
          if t.order = idx then rankPass data rest (idx + 1)
          else
            ((rankPass (assocSet data i { t with order := idx }) rest (idx + 1)).1, true)

/-- Result of `apply_order_from_id_list`: the updated mapping, the
`changed` flag it returns, and whether it called `save_data` (src lines
237-239: exactly when `changed`). -/
structure OrderResult where
  data : List (String × TopicProgress)
  changed : Bool
  didSave : Bool

/-- `apply_order_from_id_list` (src line 220). -/
def apply_order_from_id_list (data : List (String × TopicProgress))
    (ordered_ids : List String) : OrderResult :=
  { data := (rankPass data (newOrderList data ordered_ids) 1).1
    changed := (rankPass data (newOrderList data ordered_ids) 1).2
    didSave := (rankPass data (newOrderList data ordered_ids) 1).2 }


/-- Unfolding equation for `firstPass` on a cons cell. -/
theorem firstPass_cons (keys seen : List String) (i : String) (rest : List String) :
    firstPass keys seen (i :: rest)
      = if keys.contains i && !(seen.contains i) then
          ((i :: (firstPass keys (i :: seen) rest).1), (firstPass keys (i :: seen) rest).2)
        else firstPass keys seen rest := rfl

/-- `firstPass` bookkeeping: the final seen set is the kept ids plus the
initial seen set; the kept ids are distinct, are keys, and were unseen. -/
theorem firstPass_spec (keys : List String) :
    ∀ (ids seen : List String),
      (∀ x, x ∈ (firstPass keys seen ids).2 ↔ x ∈ (firstPass keys seen ids).1 ∨ x ∈ seen)
      ∧ (firstPass keys seen ids).1.Nodup
      ∧ (∀ x ∈ (firstPass keys seen ids).1, x ∈ keys ∧ x ∉ seen)
  | [], seen => by
      refine ⟨fun x => ?_, List.nodup_nil, fun x hx => absurd hx (List.not_mem_nil x)⟩
      show x ∈ seen ↔ x ∈ ([] : List String) ∨ x ∈ seen
      simp
  | i :: rest, seen => by
      by_cases hc : (keys.contains i && !(seen.contains i)) = true
      · obtain ⟨ih1, ih2, ih3⟩ := firstPass_spec keys rest (i :: seen)
        rw [firstPass_cons, if_pos hc]
        have hks : i ∈ keys ∧ i ∉ seen := by
          obtain ⟨h1, h2⟩ := Bool.and_eq_true_iff.mp hc
          refine ⟨by simpa using h1, by simpa using h2⟩
        have hni : i ∉ (firstPass keys (i :: seen) rest).1 := by
          intro hmem
          exact (ih3 i hmem).2 (List.mem_cons_self _ _)
        refine ⟨fun x => ?_, ?_, fun x hx => ?_⟩
        · rw [ih1 x]
          constructor
          · rintro (h | h)
            · exact Or.inl (List.mem_cons_of_mem _ h)
            · rcases List.mem_cons.mp h with h | h
              · exact Or.inl (h ▸ List.mem_cons_self _ _)
              · exact Or.inr h
          · rintro (h | h)
            · rcases List.mem_cons.mp h with h' | h'
              · exact Or.inr (h' ▸ List.mem_cons_self _ _)
              · exact Or.inl h'
            · exact Or.inr (List.mem_cons_of_mem _ h)
        · exact List.nodup_cons.mpr ⟨hni, ih2⟩
        · rcases List.mem_cons.mp hx with h | h
          · exact h ▸ hks
          · obtain ⟨h1, h2⟩ := ih3 x h
            exact ⟨h1, fun h3 => h2 (List.mem_cons_of_mem _ h3)⟩
      · obtain ⟨ih1, ih2, ih3⟩ := firstPass_spec keys rest seen
        rw [firstPass_cons, if_neg hc]
        exact ⟨ih1, ih2, ih3⟩

/-- Membership in the merged id sequence is membership among topic keys:
no topic is dropped and no foreign id survives. -/
theorem mem_newOrderList (data : List (String × TopicProgress)) (ids : List String) :
    ∀ x, x ∈ newOrderList data ids ↔ x ∈ data.map Prod.fst := by
  intro x
  obtain ⟨h1, _, h3⟩ := firstPass_spec (data.map Prod.fst) ids []
  unfold newOrderList
  rw [List.mem_append]
  constructor
  · rintro (h | h)
    · exact (h3 x h).1
    · exact (List.mem_filter.mp h).1
  · intro h
    by_cases hx : x ∈ (firstPass (data.map Prod.fst) [] ids).2
    · rcases (h1 x).mp hx with h' | h'
      · exact Or.inl h'
      · exact absurd h' (List.not_mem_nil x)
    · refine Or.inr (List.mem_filter.mpr ⟨h, ?_⟩)
      simpa using hx
theorem newOrderList_nodup (data : List (String × TopicProgress)) (ids : List String)
    (hk : (data.map Prod.fst).Nodup) : (newOrderList data ids).Nodup := by
  obtain ⟨h1, h2, _⟩ := firstPass_spec (data.map Prod.fst) ids []
  unfold newOrderList
  refine List.Nodup.append h2 (hk.filter _) (fun x hx1 hx2 => ?_)
  have hseen : x ∈ (firstPass (data.map Prod.fst) [] ids).2 := (h1 x).mpr (Or.inl hx1)
  have := (List.mem_filter.mp hx2).2
  simp only [Bool.not_eq_true'] at this
  exact absurd (by simpa using hseen) (by simpa using this)

/-- The merged id sequence is a permutation of the topic keys. -/
theorem newOrderList_perm (data : List (String × TopicProgress)) (ids : List String)
    (hk : (data.map Prod.fst).Nodup) :
    (newOrderList data ids).Perm (data.map Prod.fst) :=
  (List.perm_ext_iff_of_nodup (newOrderList_nodup data ids hk) hk).mpr
    (mem_newOrderList data ids)


/-- A key of the dict has a value. -/
theorem assocGet_isSome_of_mem_keys {α : Type} (d : List (String × α)) (x : String)
    (h : x ∈ d.map Prod.fst) : (assocGet d x).isSome := by
  induction d with
  | nil => simp at h
  | cons e rest ih =>
      by_cases he : e.1 = x
      · simp [assocGet, he]
      · rw [List.map_cons, List.mem_cons] at h
        rcases h with h' | h'
        · exact absurd h'.symm he
        · simpa [assocGet, he] using ih h'

/-- Overwriting an existing key keeps the key list unchanged. -/
theorem map_fst_assocSet {α : Type} (d : List (String × α)) (k : String) (v : α)
    (h : (assocGet d k).isSome) : (assocSet d k v).map Prod.fst = d.map Prod.fst := by
  induction d with
  | nil => simp [assocGet] at h
  | cons e rest ih =>
      rcases e with ⟨k₁, v₁⟩
      by_cases he : k₁ = k
      · rw [assocSet, if_pos he]
        simp [he]
      · rw [assocSet, if_neg he]
        rw [assocGet, if_neg he] at h
        simp [ih h]

/-- Unfolding equation for `rankPass` on a cons cell. -/
theorem rankPass_cons (data : List (String × TopicProgress)) (i : String)
    (rest : List String) (idx : Int) :
    rankPass data (i :: rest) idx
      = match assocGet data i with
        | none => rankPass data rest (idx + 1)
        | some t =>
            if t.order = idx then rankPass data rest (idx + 1)
            else ((rankPass (assocSet data i { t with order := idx }) rest (idx + 1)).1, true) := rfl

/-- `rankPass` when the head id is absent (unreachable in the program). -/
theorem rankPass_cons_none (data : List (String × TopicProgress)) (i : String)
    (rest : List String) (idx : Int) (h : assocGet data i = none) :
    rankPass data (i :: rest) idx = rankPass data rest (idx + 1) := by
  rw [rankPass_cons, h]

/-- `rankPass` when the head topic already has the target rank. -/
theorem rankPass_cons_eq (data : List (String × TopicProgress)) (i : String)
    (rest : List String) (idx : Int) (t : TopicProgress)
    (h : assocGet data i = some t) (ho : t.order = idx) :
    rankPass data (i :: rest) idx = rankPass data rest (idx + 1) := by
  have heq : rankPass data (i :: rest) idx
      = if t.order = idx then rankPass data rest (idx + 1)
        else ((rankPass (assocSet data i { t with order := idx }) rest (idx + 1)).1, true) := by
    rw [rankPass_cons, h]
  rw [heq, if_pos ho]

/-- `rankPass` when the head topic's rank differs: update and flag. -/
theorem rankPass_cons_ne (data : List (String × TopicProgress)) (i : String)
    (rest : List String) (idx : Int) (t : TopicProgress)
    (h : assocGet data i = some t) (ho : ¬t.order = idx) :
    rankPass data (i :: rest) idx
      = ((rankPass (assocSet data i { t with order := idx }) rest (idx + 1)).1, true) := by
  have heq : rankPass data (i :: rest) idx
      = if t.order = idx then rankPass data rest (idx + 1)
        else ((rankPass (assocSet data i { t with order := idx }) rest (idx + 1)).1, true) := by
    rw [rankPass_cons, h]
  rw [heq, if_neg ho]

/-- `rankPass` touches only the listed ids. -/
theorem rankPass_untouched :
    ∀ (ids : List String) (data : List (String × TopicProgress)) (n : Int) (x : String),
      x ∉ ids → assocGet (rankPass data ids n).1 x = assocGet data x
  | [], _, _, _, _ => rfl
  | i :: rest, data, n, x, hx => by
      have hxi : x ≠ i := fun h => hx (h ▸ List.mem_cons_self _ _)
      have hxr : x ∉ rest := fun h => hx (List.mem_cons_of_mem _ h)
      cases hgi : assocGet data i with
      | none =>
          rw [rankPass_cons_none data i rest n hgi]
          exact rankPass_untouched rest data (n + 1) x hxr
      | some t =>
          by_cases ho : t.order = n
          · rw [rankPass_cons_eq data i rest n t hgi ho]
            exact rankPass_untouched rest data (n + 1) x hxr
          · rw [rankPass_cons_ne data i rest n t hgi ho]
            show assocGet (rankPass (assocSet data i { t with order := n }) rest (n + 1)).1 x = _
            rw [rankPass_untouched rest _ (n + 1) x hxr]
            exact assocGet_assocSet_ne data i x _ hxi

/-- `rankPass` keeps the key list unchanged (every listed id is a key). -/
theorem rankPass_map_fst :
    ∀ (ids : List String) (data : List (String × TopicProgress)) (n : Int),
      (∀ i ∈ ids, (assocGet data i).isSome) →
      (rankPass data ids n).1.map Prod.fst = data.map Prod.fst
  | [], _, _, _ => rfl
  | i :: rest, data, n, hall => by
      cases hgi : assocGet data i with
      | none =>
          rw [rankPass_cons_none data i rest n hgi]
          exact rankPass_map_fst rest data (n + 1)
            (fun x hx => hall x (List.mem_cons_of_mem _ hx))
      | some t =>
          by_cases ho : t.order = n
          · rw [rankPass_cons_eq data i rest n t hgi ho]
            exact rankPass_map_fst rest data (n + 1)
              (fun x hx => hall x (List.mem_cons_of_mem _ hx))
          · rw [rankPass_cons_ne data i rest n t hgi ho]
            show (rankPass (assocSet data i { t with order := n }) rest (n + 1)).1.map Prod.fst = _
            have hall' : ∀ x ∈ rest, (assocGet (assocSet data i { t with order := n }) x).isSome := by
              intro x hx
              by_cases hxi : x = i
              · rw [hxi, assocGet_assocSet_self]
                rfl
              · rw [assocGet_assocSet_ne data i x _ hxi]
                exact hall x (List.mem_cons_of_mem _ hx)
            rw [rankPass_map_fst rest _ (n + 1) hall']
            exact map_fst_assocSet data i _ (by rw [hgi]; rfl)

/-- After `rankPass`, the id at 0-based position `j` has order `n + j`. -/
theorem rankPass_ranks :
    ∀ (ids : List String) (data : List (String × TopicProgress)) (n : Int),
      ids.Nodup → (∀ i ∈ ids, (assocGet data i).isSome) →
      ∀ (j : Nat) (hj : j < ids.length),
        (assocGet (rankPass data ids n).1 (ids.get ⟨j, hj⟩)).map TopicProgress.order
          = some (n + j)
  | [], _, _, _, _, j, hj => absurd hj (Nat.not_lt_zero j)
  | i :: rest, data, n, hnd, hall, j, hj => by
      have hir : i ∉ rest := (List.nodup_cons.mp hnd).1
      have hndr : rest.Nodup := (List.nodup_cons.mp hnd).2
      cases hgi : assocGet data i with
      | none =>
          have h1 := hall i (List.mem_cons_self _ _)
          rw [hgi] at h1
          simp at h1
      | some t =>
          by_cases ho : t.order = n
          · rw [rankPass_cons_eq data i rest n t hgi ho]
            match j with
            | 0 =>
                show (assocGet (rankPass data rest (n + 1)).1 i).map TopicProgress.order = _
                rw [rankPass_untouched rest data (n + 1) i hir, hgi]
                show some t.order = some (n + (0 : Nat))
                rw [ho]
                norm_num
            | j' + 1 =>
                have h := rankPass_ranks rest data (n + 1) hndr
                  (fun x hx => hall x (List.mem_cons_of_mem _ hx)) j'
                  (Nat.lt_of_succ_lt_succ hj)
                show (assocGet (rankPass data rest (n + 1)).1
                    (rest.get ⟨j', Nat.lt_of_succ_lt_succ hj⟩)).map TopicProgress.order = _
                rw [h]
                congr 1
                push_cast
                ring
          · rw [rankPass_cons_ne data i rest n t hgi ho]
            have hall' : ∀ x ∈ rest, (assocGet (assocSet data i { t with order := n }) x).isSome := by
              intro x hx
              by_cases hxi : x = i
              · rw [hxi, assocGet_assocSet_self]
                rfl
              · rw [assocGet_assocSet_ne data i x _ hxi]
                exact hall x (List.mem_cons_of_mem _ hx)
            match j with
            | 0 =>
                show (assocGet (rankPass (assocSet data i { t with order := n }) rest (n + 1)).1 i).map
                    TopicProgress.order = _
                rw [rankPass_untouched rest _ (n + 1) i hir, assocGet_assocSet_self]
                show some n = some (n + (0 : Nat))
                norm_num
            | j' + 1 =>
                have h := rankPass_ranks rest (assocSet data i { t with order := n }) (n + 1)
                  hndr hall' j' (Nat.lt_of_succ_lt_succ hj)
                show (assocGet (rankPass (assocSet data i { t with order := n }) rest (n + 1)).1
                    (rest.get ⟨j', Nat.lt_of_succ_lt_succ hj⟩)).map TopicProgress.order = _
                rw [h]
                congr 1
                push_cast
                ring

/-- When every listed id already has exactly its target rank, `rankPass`
changes nothing and reports `changed = false`. -/
theorem rankPass_nochange :
    ∀ (ids : List String) (data : List (String × TopicProgress)) (n : Int),
      (∀ (j : Nat) (hj : j < ids.length),
        (assocGet data (ids.get ⟨j, hj⟩)).map TopicProgress.order = some (n + j)) →
      rankPass data ids n = (data, false)
  | [], _, _, _ => rfl
  | i :: rest, data, n, h => by
      have h0 : (assocGet data i).map TopicProgress.order = some (n + (0 : Nat)) :=
        h 0 (Nat.succ_pos _)
      have hi : ∃ t, assocGet data i = some t ∧ t.order = n := by
        cases hgi : assocGet data i with
        | none => rw [hgi] at h0; simp at h0
        | some t =>
            rw [hgi] at h0
            refine ⟨t, rfl, ?_⟩
            have h1 : some t.order = some (n + (0 : Nat)) := h0
            have h2 := Option.some.inj h1
            omega
      obtain ⟨t, hgi, ho⟩ := hi
      rw [rankPass_cons_eq data i rest n t hgi ho]
      refine rankPass_nochange rest data (n + 1) (fun j hj => ?_)
      have := h (j + 1) (Nat.succ_lt_succ hj)
      rw [show ((i :: rest).get ⟨j + 1, Nat.succ_lt_succ hj⟩) = rest.get ⟨j, hj⟩ from rfl] at this
      rw [this]
      congr 1
      push_cast
      ring

/-- With distinct keys, every entry is found by lookup of its key. -/
theorem assocGet_of_mem_nodup {α : Type} :
    ∀ (d : List (String × α)), (d.map Prod.fst).Nodup →
      ∀ e ∈ d, assocGet d e.1 = some e.2
  | [], _, e, he => absurd he (List.not_mem_nil e)
  | e' :: rest, hk, e, he => by
      rw [List.map_cons, List.nodup_cons] at hk
      rcases List.mem_cons.mp he with h | h
      · subst h
        show (if e.1 = e.1 then some e.2 else assocGet rest e.1) = some e.2
        rw [if_pos rfl]
      · have hne : e'.1 ≠ e.1 := by
          intro hq
          exact hk.1 (hq ▸ List.mem_map_of_mem Prod.fst h)
        show (if e'.1 = e.1 then some e'.2 else assocGet rest e.1) = some e.2
        rw [if_neg hne]
        exact assocGet_of_mem_nodup rest hk.2 e h


/-- Specification-side description of the merged id sequence, written
from the claim's words for comparison with the implementation: the
client-supplied ids that name existing topics, duplicates collapsed to
their first occurrence, followed by the topic ids missing from the
client list, appended at the end in mapping iteration order. -/
def claimedMergedIds (keys ids : List String) : List String :=
  ids.foldl (fun acc i => if i ∈ keys ∧ i ∉ acc then acc ++ [i] else acc) []
    ++ keys.filter (fun k => !(ids.contains k))

/-- The first-occurrence fold of the claim computes the kept list of the
implementation's first loop (the accumulator and `seen` agree as sets). -/
theorem foldl_firstPass (keys : List String) :
    ∀ (ids acc seen : List String), (∀ x, x ∈ acc ↔ x ∈ seen) →
      ids.foldl (fun acc i => if i ∈ keys ∧ i ∉ acc then acc ++ [i] else acc) acc
        = acc ++ (firstPass keys seen ids).1
  | [], acc, seen, _ => by
      rw [List.foldl_nil]
      show acc = acc ++ []
      rw [List.append_nil]
  | i :: rest, acc, seen, hiff => by
      rw [List.foldl_cons, firstPass_cons]
      by_cases hcb : (keys.contains i && !(seen.contains i)) = true
      · have hc : i ∈ keys ∧ i ∉ acc := by
          obtain ⟨h1, h2⟩ := Bool.and_eq_true_iff.mp hcb
          exact ⟨by simpa using h1, fun hx => (by simpa using h2 : i ∉ seen) ((hiff i).mp hx)⟩
        rw [if_pos hc, if_pos hcb]
        have hiff' : ∀ x, x ∈ acc ++ [i] ↔ x ∈ i :: seen := by
          intro x
          rw [List.mem_append, List.mem_singleton, List.mem_cons, hiff x]
          tauto
        rw [foldl_firstPass keys rest (acc ++ [i]) (i :: seen) hiff']
        rw [List.append_assoc]
        rfl
      · have hc : ¬(i ∈ keys ∧ i ∉ acc) := by
          intro ⟨h1, h2⟩
          have hns : i ∉ seen := fun h => h2 ((hiff i).mpr h)
          exact hcb (Bool.and_eq_true_iff.mpr ⟨by simpa using h1, by simpa using hns⟩)
        rw [if_neg hc, if_neg hcb]
        exact foldl_firstPass keys rest acc seen hiff

/-- Every id the first loop keeps occurs in the client list. -/
theorem firstPass_subset_ids (keys : List String) :
    ∀ (ids seen : List String) (x : String),
      x ∈ (firstPass keys seen ids).1 → x ∈ ids
  | [], _, x, h => absurd h (List.not_mem_nil x)
  | i :: rest, seen, x, h => by
      by_cases hcb : (keys.contains i && !(seen.contains i)) = true
      · rw [firstPass_cons, if_pos hcb] at h
        rcases List.mem_cons.mp h with h' | h'
        · rw [h']
          exact List.mem_cons_self _ _
        · exact List.mem_cons_of_mem _ (firstPass_subset_ids keys rest (i :: seen) x h')
      · rw [firstPass_cons, if_neg hcb] at h
        exact List.mem_cons_of_mem _ (firstPass_subset_ids keys rest seen x h)

/-- Every unseen key occurring in the client list is kept. -/
theorem mem_firstPass_of (keys : List String) :
    ∀ (ids seen : List String) (x : String),
      x ∈ ids → x ∈ keys → x ∉ seen → x ∈ (firstPass keys seen ids).1
  | [], _, x, hx, _, _ => absurd hx (List.not_mem_nil x)
  | i :: rest, seen, x, hx, hk, hs => by
      by_cases hcb : (keys.contains i && !(seen.contains i)) = true
      · rw [firstPass_cons, if_pos hcb]
        by_cases hxi : x = i
        · rw [hxi]
          exact List.mem_cons_self _ _
        · rcases List.mem_cons.mp hx with h | h
          · exact absurd h hxi
          · refine List.mem_cons_of_mem _
              (mem_firstPass_of keys rest (i :: seen) x h hk ?_)
            intro hmem
            rcases List.mem_cons.mp hmem with h' | h'
            · exact hxi h'
            · exact hs h'
      · rw [firstPass_cons, if_neg hcb]
        rcases List.mem_cons.mp hx with h | h
        · exfalso
          have hik : i ∈ keys := by rw [← h]; exact hk
          have his : i ∉ seen := by rw [← h]; exact hs
          exact hcb (Bool.and_eq_true_iff.mpr ⟨by simpa using hik, by simpa using his⟩)
        · exact mem_firstPass_of keys rest seen x h hk hs

/-- The implementation's merged sequence is exactly the sequence the
claim describes. -/
theorem newOrderList_eq_claimed (data : List (String × TopicProgress))
    (ids : List String) :
    newOrderList data ids = claimedMergedIds (data.map Prod.fst) ids := by
  obtain ⟨hseen, _, _⟩ := firstPass_spec (data.map Prod.fst) ids []
  unfold newOrderList claimedMergedIds
  have hA : ids.foldl
      (fun acc i => if i ∈ data.map Prod.fst ∧ i ∉ acc then acc ++ [i] else acc) []
      = (firstPass (data.map Prod.fst) [] ids).1 := by
    rw [foldl_firstPass (data.map Prod.fst) ids [] [] (fun x => Iff.rfl)]
    rw [List.nil_append]
  have hB : (data.map Prod.fst).filter
      (fun i => !((firstPass (data.map Prod.fst) [] ids).2.contains i))
      = (data.map Prod.fst).filter (fun k => !(ids.contains k)) := by
    refine List.filter_congr (fun k hk => ?_)
    have hmem : k ∈ (firstPass (data.map Prod.fst) [] ids).2 ↔ k ∈ ids := by
      rw [hseen k]
      constructor
      · rintro (h | h)
        · exact firstPass_subset_ids (data.map Prod.fst) ids [] k h
        · exact absurd h (List.not_mem_nil k)
      · intro h
        exact Or.inl (mem_firstPass_of (data.map Prod.fst) ids [] k h hk
          (List.not_mem_nil k))
    have hco : ((firstPass (data.map Prod.fst) [] ids).2.contains k) = (ids.contains k) := by
      rw [Bool.eq_iff_iff]
      constructor
      · intro h
        simpa using hmem.mp (by simpa using h)
      · intro h
        simpa using hmem.mpr (by simpa using h)
    rw [hco]
  rw [hA, hB]

/-- C4: for every topic mapping (with the distinct keys a Python dict
guarantees) and every client id list, reconciliation keeps the key set of
the mapping unchanged (no topic dropped, foreign ids ignored), the final
order values are exactly the contiguous ranks 1..N, and each rank is
assigned positionally along the claimed merged sequence: client ids
restricted to existing topics with duplicates collapsed to their first
occurrence, then the omitted topic ids appended at the end in mapping
order. -/
theorem claim_C4_contiguous_ranks (data : List (String × TopicProgress))
    (ordered_ids : List String) (hk : (data.map Prod.fst).Nodup) :
    (apply_order_from_id_list data ordered_ids).data.map Prod.fst = data.map Prod.fst
    ∧ ((apply_order_from_id_list data ordered_ids).data.map (fun e => e.2.order)).Perm
        ((List.range' 1 data.length).map Int.ofNat)
    ∧ ∀ (j : Nat) (hj : j < (claimedMergedIds (data.map Prod.fst) ordered_ids).length),
        (assocGet (apply_order_from_id_list data ordered_ids).data
            ((claimedMergedIds (data.map Prod.fst) ordered_ids).get ⟨j, hj⟩)).map
          TopicProgress.order = some (1 + j) := by
  have hperm : (newOrderList data ordered_ids).Perm (data.map Prod.fst) :=
    newOrderList_perm data ordered_ids hk
  have hnd : (newOrderList data ordered_ids).Nodup := newOrderList_nodup data ordered_ids hk
  have hall : ∀ i ∈ newOrderList data ordered_ids, (assocGet data i).isSome :=
    fun i hi => assocGet_isSome_of_mem_keys data i ((mem_newOrderList data ordered_ids i).mp hi)
  have hfst : (rankPass data (newOrderList data ordered_ids) 1).1.map Prod.fst
      = data.map Prod.fst :=
    rankPass_map_fst (newOrderList data ordered_ids) data 1 hall
  have hlen : (newOrderList data ordered_ids).length = data.length := by
    rw [hperm.length_eq, List.length_map]
  have hranks := rankPass_ranks (newOrderList data ordered_ids) data 1 hnd hall
  refine ⟨hfst, ?_, ?_⟩
  · have hkR : ((rankPass data (newOrderList data ordered_ids) 1).1.map Prod.fst).Nodup := by
      rw [hfst]; exact hk
    have hA : (rankPass data (newOrderList data ordered_ids) 1).1.map (fun e => e.2.order)
        = ((rankPass data (newOrderList data ordered_ids) 1).1.map Prod.fst).map
            (fun k => ((assocGet (rankPass data (newOrderList data ordered_ids) 1).1 k).map
              TopicProgress.order).getD 0) := by
      rw [List.map_map]
      refine List.map_congr_left (fun e he => ?_)
      rw [Function.comp_apply,
        assocGet_of_mem_nodup (rankPass data (newOrderList data ordered_ids) 1).1 hkR e he]
      rfl
    have hD : (newOrderList data ordered_ids).map
        (fun k => ((assocGet (rankPass data (newOrderList data ordered_ids) 1).1 k).map
          TopicProgress.order).getD 0)
        = (List.range' 1 data.length).map Int.ofNat := by
      refine List.ext_get ?_ (fun j h1 h2 => ?_)
      · rw [List.length_map, hlen, List.length_map, List.length_range']
      · have hj : j < (newOrderList data ordered_ids).length := by
          rwa [List.length_map] at h1
        have hj2 : j < (List.range' 1 data.length).length := by
          rw [List.length_range']
          rwa [List.length_map, List.length_range'] at h2
        rw [List.get_map, List.get_map]
        rw [hranks j hj]
        have hg : (List.range' 1 data.length).get ⟨j, hj2⟩ = 1 + j := by
          simp [List.getElem_range']
        rw [hg]
        rfl
    show ((rankPass data (newOrderList data ordered_ids) 1).1.map (fun e => e.2.order)).Perm _
    rw [hA, hfst, ← hD]
    exact (hperm.map _).symm
  · intro j hj
    have hj' : j < (newOrderList data ordered_ids).length := by
      rw [newOrderList_eq_claimed data ordered_ids]
      exact hj
    have h := hranks j hj'
    have hget := List.get_of_eq (newOrderList_eq_claimed data ordered_ids) ⟨j, hj'⟩
    rw [hget] at h
    exact h

/-- Witness discharging C4's distinct-keys hypothesis at a concrete
two-topic mapping and a stale, duplicated client list `["b","b","zzz"]`:
the foreign id "zzz" is ignored, the duplicate "b" collapses to its first
occurrence and gets rank 1, and the omitted topic "a" is appended at the
end with rank 2. -/
theorem claim_C4_witness :
    (apply_order_from_id_list [("a", TopicProgress.new "a" "A" 1), ("b", exTopicB)]
        ["b", "b", "zzz"]).data.map Prod.fst = ["a", "b"]
    ∧ ((apply_order_from_id_list [("a", TopicProgress.new "a" "A" 1), ("b", exTopicB)]
        ["b", "b", "zzz"]).data.map (fun e => e.2.order)).Perm
        ((List.range' 1 2).map Int.ofNat)
    ∧ claimedMergedIds ["a", "b"] ["b", "b", "zzz"] = ["b", "a"]
    ∧ (assocGet (apply_order_from_id_list [("a", TopicProgress.new "a" "A" 1), ("b", exTopicB)]
        ["b", "b", "zzz"]).data "b").map TopicProgress.order = some 1
    ∧ (assocGet (apply_order_from_id_list [("a", TopicProgress.new "a" "A" 1), ("b", exTopicB)]
        ["b", "b", "zzz"]).data "a").map TopicProgress.order = some 2 := by
  obtain ⟨h1, h2, h3⟩ := claim_C4_contiguous_ranks
    [("a", TopicProgress.new "a" "A" 1), ("b", exTopicB)] ["b", "b", "zzz"] (by decide)
  refine ⟨h1, h2, by decide, ?_, ?_⟩
  · have h := h3 0 (by decide)
    simpa using h
  · have h := h3 1 (by decide)
    simpa using h

/-- When the client ids are distinct, all known and all unseen, the first
loop keeps them verbatim. -/
theorem firstPass_all_kept (keys : List String) :
    ∀ (ids seen : List String), ids.Nodup →
      (∀ x ∈ ids, x ∈ keys ∧ x ∉ seen) → (firstPass keys seen ids).1 = ids
  | [], _, _, _ => rfl
  | i :: rest, seen, hnd, hall => by
      have hi := hall i (List.mem_cons_self _ _)
      have hc : (keys.contains i && !(seen.contains i)) = true := by
        refine Bool.and_eq_true_iff.mpr ⟨by simpa using hi.1, by simpa using hi.2⟩
      rw [firstPass_cons, if_pos hc]
      show i :: (firstPass keys (i :: seen) rest).1 = i :: rest
      rw [firstPass_all_kept keys rest (i :: seen) (List.nodup_cons.mp hnd).2 ?hall']
      case hall' =>
        intro x hx
        obtain ⟨h1, h2⟩ := hall x (List.mem_cons_of_mem _ hx)
        refine ⟨h1, fun h3 => ?_⟩
        rcases List.mem_cons.mp h3 with h4 | h4
        · exact (List.nodup_cons.mp hnd).1 (h4 ▸ hx)
        · exact h2 h4

/-- A single topic whose stored order is 2 (not contiguous from 1). -/
def exTopicOrd2 : TopicProgress :=
  { id := "a", label := "A", order := 2, global_steps := [], variants := [] }

/-- Counterexample to C3 as stated: for the one-topic mapping whose topic
has stored order 2, the id sequence sorted by current order is exactly
`["a"]`, yet reconciling with it reassigns rank 1, reports
`changed = true` and issues a write.  `changed = false` needs the stored
orders to already be the contiguous ranks, not merely the same sequence. -/
theorem claim_C3_counterexample :
    ([("a", exTopicOrd2)].map Prod.fst = ["a"])
    ∧ (apply_order_from_id_list [("a", exTopicOrd2)] ["a"]).changed = true
    ∧ (apply_order_from_id_list [("a", exTopicOrd2)] ["a"]).didSave = true := by
  decide

/-- C3 (amended): reconciling with the current id sequence makes no change
and issues no write, provided the stored orders already are the contiguous
ranks 1..N along that sequence — which holds after any reconciliation; a
merely order-sorted sequence over non-contiguous stored ranks still
triggers a write. -/
theorem claim_C3_idempotent_amended (data : List (String × TopicProgress))
    (ordered_ids : List String) (hnd : ordered_ids.Nodup)
    (hcov : ∀ x, x ∈ ordered_ids ↔ x ∈ data.map Prod.fst)
    (hord : ∀ (j : Nat) (hj : j < ordered_ids.length),
      (assocGet data (ordered_ids.get ⟨j, hj⟩)).map TopicProgress.order = some (1 + j)) :
    apply_order_from_id_list data ordered_ids
      = { data := data, changed := false, didSave := false } := by
  have hkept : (firstPass (data.map Prod.fst) [] ordered_ids).1 = ordered_ids :=
    firstPass_all_kept (data.map Prod.fst) ordered_ids [] hnd
      (fun x hx => ⟨(hcov x).mp hx, List.not_mem_nil x⟩)
  have hfilter : (data.map Prod.fst).filter
      (fun i => !((firstPass (data.map Prod.fst) [] ordered_ids).2.contains i)) = [] := by
    refine List.filter_eq_nil_iff.mpr (fun x hx => ?_)
    obtain ⟨h1, _, _⟩ := firstPass_spec (data.map Prod.fst) ordered_ids []
    have hx1 : x ∈ (firstPass (data.map Prod.fst) [] ordered_ids).1 := by
      rw [hkept]
      exact (hcov x).mpr hx
    have hx2 : x ∈ (firstPass (data.map Prod.fst) [] ordered_ids).2 :=
      (h1 x).mpr (Or.inl hx1)
    simpa using hx2
  have hnew : newOrderList data ordered_ids = ordered_ids := by
    unfold newOrderList
    rw [hkept, hfilter, List.append_nil]
  have hrp : rankPass data ordered_ids 1 = (data, false) :=
    rankPass_nochange ordered_ids data 1 hord
  unfold apply_order_from_id_list
  rw [hnew, hrp]

/-- Two topics already bearing contiguous ranks 1 and 2. -/
def exTopicOrd1 : TopicProgress :=
  { id := "a", label := "A", order := 1, global_steps := [], variants := [] }

/-- Two topics already bearing contiguous ranks 1 and 2 (second). -/
def exTopicOrd2B : TopicProgress :=
  { id := "b", label := "B", order := 2, global_steps := [], variants := [] }

/-- Witness for the amended C3 at a concrete contiguous two-topic
mapping: no change, no write. -/
theorem claim_C3_witness :
    apply_order_from_id_list [("a", exTopicOrd1), ("b", exTopicOrd2B)] ["a", "b"]
      = { data := [("a", exTopicOrd1), ("b", exTopicOrd2B)], changed := false,
          didSave := false } :=
  claim_C3_idempotent_amended [("a", exTopicOrd1), ("b", exTopicOrd2B)] ["a", "b"]
    (by decide) (fun x => by simp [exTopicOrd1, exTopicOrd2B]) (by decide)

/-- The two inline validation failures of the add form (src lines
270-274). -/
inductive AddError where
  | emptyName : AddError
  | duplicateLabel : AddError
deriving Repr, DecidableEq

/-- Result of submitting the add-topic form: the (possibly unchanged)
mapping, whether `save_data` ran, and the reported validation error. -/
structure AddOutcome where
  data : List (String × TopicProgress)
  didSave : Bool
  err : Option AddError
deriving Repr, DecidableEq

/-- `max((ap.order for ap in data.values()), default=0)` (src line 276). -/
def maxOrderDefault0 (data : List (String × TopicProgress)) : Int :=
  match data.map (fun e => e.2.order) with
  | [] => 0
  | o :: rest => rest.foldl max o

/-- The add-topic submit handler (src lines 268-282), with the
`uuid.uuid4().hex` fresh id passed in as `newId`: reject a blank name,
reject a `norm`-duplicate label, otherwise insert the new topic and
persist. -/
def add_item_action (data : List (String × TopicProgress)) (new_name : String)
    (newId : String) : AddOutcome :=
  if pyStrip new_name = "" then
    { data := data, didSave := false, err := some .emptyName }
  else if data.any (fun e => norm e.2.label == norm (pyStrip new_name)) then
    { data := data, didSave := false, err := some .duplicateLabel }
  else
    { data := assocSet data newId
        (TopicProgress.new newId (pyStrip new_name) (maxOrderDefault0 data + 1))
      didSave := true
      err := none }

/-- C6: the add action rejects an empty (all-whitespace) name, and rejects
a name whose `norm` form (trimmed, inner whitespace collapsed, lowercased)
equals an existing label's `norm` form; both rejections leave the mapping
untouched and write nothing. -/
theorem claim_C6_add_validation (data : List (String × TopicProgress))
    (new_name newId : String) :
    (pyStrip new_name = "" →
      add_item_action data new_name newId
        = { data := data, didSave := false, err := some AddError.emptyName })
    ∧ (pyStrip new_name ≠ "" →
      (∃ e ∈ data, norm e.2.label = norm (pyStrip new_name)) →
      add_item_action data new_name newId
        = { data := data, didSave := false, err := some AddError.duplicateLabel }) := by
  constructor
  · intro h
    unfold add_item_action
    rw [if_pos h]
  · intro h1 h2
    unfold add_item_action
    rw [if_neg h1, if_pos ?hc]
    case hc =>
      obtain ⟨e, he, heq⟩ := h2
      exact List.any_eq_true.mpr ⟨e, he, beq_iff_eq.mpr heq⟩

/-- An all-whitespace name and a spacing/case variant of an existing
label are both rejected without mutation (concrete witness for C6). -/
theorem claim_C6_witness :
    add_item_action [("a", TopicProgress.new "a" "Travel  Posters" 1)] "   " "zz"
      = { data := [("a", TopicProgress.new "a" "Travel  Posters" 1)], didSave := false,
          err := some AddError.emptyName }
    ∧ add_item_action [("a", TopicProgress.new "a" "Travel  Posters" 1)] " travel posters " "zz"
      = { data := [("a", TopicProgress.new "a" "Travel  Posters" 1)], didSave := false,
          err := some AddError.duplicateLabel } := by
  obtain ⟨h1, -⟩ :=
    claim_C6_add_validation [("a", TopicProgress.new "a" "Travel  Posters" 1)] "   " "zz"
  obtain ⟨-, h2⟩ :=
    claim_C6_add_validation [("a", TopicProgress.new "a" "Travel  Posters" 1)]
      " travel posters " "zz"
  refine ⟨h1 (by decide), h2 (by decide) ?_⟩
  exact ⟨("a", TopicProgress.new "a" "Travel  Posters" 1), by decide, by decide⟩

/-- The head of a `dropWhile` result fails the predicate. -/
theorem dropWhile_head_false (p : Char → Bool) :
    ∀ (l : List Char) (c : Char) (cs : List Char), l.dropWhile p = c :: cs → p c = false
  | [], c, cs, h => by simp [List.dropWhile] at h
  | c' :: rest, c, cs, h => by
      by_cases hp : p c' = true
      · rw [List.dropWhile_cons_of_pos hp] at h
        exact dropWhile_head_false p rest c cs h
      · rw [List.dropWhile_cons_of_neg hp] at h
        cases h
        exact Bool.eq_false_iff.mpr hp

/-- `dropWhile` is idempotent. -/
theorem dropWhile_dropWhile (p : Char → Bool) (l : List Char) :
    (l.dropWhile p).dropWhile p = l.dropWhile p := by
  cases h : l.dropWhile p with
  | nil => rfl
  | cons c cs =>
      rw [List.dropWhile_cons_of_neg]
      rw [dropWhile_head_false p l c cs h]
      simp

/-- A two-sided strip starts with a non-matching character, so a further
front strip does nothing. -/
theorem stripList_dropWhile (p : Char → Bool) (l : List Char) :
    (((l.dropWhile p).reverse.dropWhile p).reverse).dropWhile p
      = ((l.dropWhile p).reverse.dropWhile p).reverse := by
  have hsplit : (l.dropWhile p).reverse.takeWhile p ++ (l.dropWhile p).reverse.dropWhile p
      = (l.dropWhile p).reverse := List.takeWhile_append_dropWhile p (l.dropWhile p).reverse
  have hA : ((l.dropWhile p).reverse.dropWhile p).reverse
      ++ ((l.dropWhile p).reverse.takeWhile p).reverse = l.dropWhile p := by
    rw [← List.reverse_append, hsplit, List.reverse_reverse]
  cases hB : ((l.dropWhile p).reverse.dropWhile p).reverse with
  | nil => rfl
  | cons c cs =>
      have hAc : l.dropWhile p = c :: (cs ++ ((l.dropWhile p).reverse.takeWhile p).reverse) := by
        conv_lhs => rw [← hA, hB]
        rw [List.cons_append]
      rw [List.dropWhile_cons_of_neg]
      rw [dropWhile_head_false p l c _ hAc]
      simp

/-- Python `str.strip()` is idempotent. -/
theorem pyStrip_idem (s : String) : pyStrip (pyStrip s) = pyStrip s := by
  show String.mk _ = String.mk _
  unfold pyStrip
  congr 1
  rw [show (String.mk (((s.toList.dropWhile isSpaceChar).reverse.dropWhile isSpaceChar).reverse)).toList
      = ((s.toList.dropWhile isSpaceChar).reverse.dropWhile isSpaceChar).reverse from rfl]
  rw [stripList_dropWhile isSpaceChar s.toList]
  rw [List.reverse_reverse, dropWhile_dropWhile]

/-- `foldl max` dominates its seed and every element. -/
theorem le_foldl_max :
    ∀ (rest : List Int) (o0 : Int),
      o0 ≤ rest.foldl max o0 ∧ ∀ o ∈ rest, o ≤ rest.foldl max o0
  | [], o0 => ⟨le_refl o0, fun o ho => absurd ho (List.not_mem_nil o)⟩
  | r :: rest, o0 => by
      obtain ⟨h1, h2⟩ := le_foldl_max rest (max o0 r)
      refine ⟨?_, fun o ho => ?_⟩
      · rw [List.foldl_cons]
        exact le_trans (le_max_left o0 r) h1
      · rw [List.foldl_cons]
        rcases List.mem_cons.mp ho with h | h
        · rw [h]
          exact le_trans (le_max_right o0 r) h1
        · exact h2 o h

/-- `foldl max` is its seed or one of the elements. -/
theorem foldl_max_mem :
    ∀ (rest : List Int) (o0 : Int),
      rest.foldl max o0 = o0 ∨ rest.foldl max o0 ∈ rest
  | [], o0 => Or.inl rfl
  | r :: rest, o0 => by
      rcases foldl_max_mem rest (max o0 r) with h | h
      · rcases max_choice o0 r with h' | h'
        · refine Or.inl ?_
          rw [List.foldl_cons, h, h']
        · refine Or.inr ?_
          rw [List.foldl_cons, h, h']
          exact List.mem_cons_self _ _
      · refine Or.inr ?_
        rw [List.foldl_cons]
        exact List.mem_cons_of_mem _ h

/-- Every stored order is at most `maxOrderDefault0`. -/
theorem le_maxOrderDefault0 (data : List (String × TopicProgress)) :
    ∀ e ∈ data, e.2.order ≤ maxOrderDefault0 data := by
  intro e he
  have hmem : e.2.order ∈ data.map (fun e => e.2.order) :=
    List.mem_map_of_mem (fun e => e.2.order) he
  unfold maxOrderDefault0
  cases horders : data.map (fun e => e.2.order) with
  | nil => rw [horders] at hmem; exact absurd hmem (List.not_mem_nil _)
  | cons o rest =>
      rw [horders] at hmem
      obtain ⟨h1, h2⟩ := le_foldl_max rest o
      rcases List.mem_cons.mp hmem with h | h
      · exact h ▸ h1
      · exact h2 _ h

/-- On a nonempty mapping, `maxOrderDefault0` is one of the stored
orders. -/
theorem maxOrderDefault0_mem (data : List (String × TopicProgress)) (hne : data ≠ []) :
    ∃ e ∈ data, maxOrderDefault0 data = e.2.order := by
  unfold maxOrderDefault0
  cases horders : data.map (fun e => e.2.order) with
  | nil => exact absurd (List.map_eq_nil.mp horders) hne
  | cons o rest =>
      have hmem : rest.foldl max o ∈ o :: rest := by
        rcases foldl_max_mem rest o with h | h
        · rw [h]
          exact List.mem_cons_self _ _
        · exact List.mem_cons_of_mem _ h
      rw [← horders] at hmem
      obtain ⟨e, he, heq⟩ := List.mem_map.mp hmem
      exact ⟨e, he, heq.symm⟩

/-- C7: a successful add (nonblank name, no `norm`-duplicate, fresh
generated id) reports no error, persists, and inserts a topic whose id is
the fresh id (distinct from every existing id), whose label is the
trimmed name, whose order is the maximum existing order plus one (1 on an
empty list), and whose seven enumerated steps are all `false`. -/
theorem claim_C7_add_success (data : List (String × TopicProgress))
    (new_name newId : String) (hname : pyStrip new_name ≠ "")
    (hdup : ∀ e ∈ data, norm e.2.label ≠ norm (pyStrip new_name))
    (hfresh : newId ∉ data.map Prod.fst) :
    (add_item_action data new_name newId).err = none
    ∧ (add_item_action data new_name newId).didSave = true
    ∧ ∃ t, assocGet (add_item_action data new_name newId).data newId = some t
        ∧ t.id = newId
        ∧ (∀ k ∈ data.map Prod.fst, k ≠ t.id)
        ∧ t.label = pyStrip new_name
        ∧ t.order = maxOrderDefault0 data + 1
        ∧ (∀ e ∈ data, e.2.order < t.order)
        ∧ (data ≠ [] → ∃ e ∈ data, t.order = e.2.order + 1)
        ∧ (data = [] → t.order = 1)
        ∧ t.variants = [("dikey", COLUMN_STEPS.map (fun p => (p.1, false)))] := by
  have hany : data.any (fun e => norm e.2.label == norm (pyStrip new_name)) = false := by
    rw [Bool.eq_false_iff]
    intro h
    obtain ⟨e, he, heq⟩ := List.any_eq_true.mp h
    exact hdup e he (beq_iff_eq.mp heq)
  have heq : add_item_action data new_name newId
      = { data := assocSet data newId
            (TopicProgress.new newId (pyStrip new_name) (maxOrderDefault0 data + 1))
          didSave := true
          err := none } := by
    unfold add_item_action
    rw [if_neg hname, hany]
    rfl
  rw [heq]
  refine ⟨rfl, rfl,
    TopicProgress.new newId (pyStrip new_name) (maxOrderDefault0 data + 1),
    assocGet_assocSet_self data newId _, rfl, ?_, ?_, rfl, ?_, ?_, ?_, rfl⟩
  · intro k hk hknew
    have hkn : k = newId := hknew
    exact hfresh (hkn ▸ hk)
  · exact pyStrip_idem new_name
  · intro e he
    have := le_maxOrderDefault0 data e he
    show e.2.order < maxOrderDefault0 data + 1
    omega
  · intro hne
    obtain ⟨e, he, hmax⟩ := maxOrderDefault0_mem data hne
    refine ⟨e, he, ?_⟩
    show maxOrderDefault0 data + 1 = e.2.order + 1
    rw [hmax]
  · intro hempty
    subst hempty
    rfl

/-- Witness for C7: adding " New Topic " beside an existing order-1 topic
with a fresh id (all three hypotheses discharged concretely). -/
theorem claim_C7_witness :
    (add_item_action [("a", exTopicOrd1)] " New Topic " "fresh").err = none
    ∧ (add_item_action [("a", exTopicOrd1)] " New Topic " "fresh").didSave = true
    ∧ ∃ t, assocGet (add_item_action [("a", exTopicOrd1)] " New Topic " "fresh").data "fresh"
          = some t
        ∧ t.id = "fresh"
        ∧ (∀ k ∈ [("a", exTopicOrd1)].map Prod.fst, k ≠ t.id)
        ∧ t.label = pyStrip " New Topic "
        ∧ t.order = maxOrderDefault0 [("a", exTopicOrd1)] + 1
        ∧ (∀ e ∈ [("a", exTopicOrd1)], e.2.order < t.order)
        ∧ ([("a", exTopicOrd1)] ≠ [] → ∃ e ∈ [("a", exTopicOrd1)], t.order = e.2.order + 1)
        ∧ ([("a", exTopicOrd1)] = [] → t.order = 1)
        ∧ t.variants = [("dikey", COLUMN_STEPS.map (fun p => (p.1, false)))] :=
  claim_C7_add_success [("a", exTopicOrd1)] " New Topic " "fresh"
    (by decide) (by decide) (by decide)

/-- The complete-only branch of the view filter (src line 369). -/
def filter_complete (items : List TopicProgress) : List TopicProgress :=
  items.filter (fun a => (calc_done_total a).1 == (calc_done_total a).2)

/-- The incomplete-only branch of the view filter (src line 367). -/
def filter_incomplete (items : List TopicProgress) : List TopicProgress :=
  items.filter (fun a => decide ((calc_done_total a).1 < (calc_done_total a).2))

/-- C8: the complete-only filter selects exactly the items with
`done = total = 7`, the incomplete-only filter selects exactly the items
with `done < total`, and on any item list the two are complementary. -/
theorem claim_C8_filters (items : List TopicProgress) (a : TopicProgress) :
    (a ∈ filter_complete items
      ↔ a ∈ items ∧ (calc_done_total a).1 = 7 ∧ (calc_done_total a).2 = 7)
    ∧ (a ∈ filter_incomplete items
      ↔ a ∈ items ∧ (calc_done_total a).1 < (calc_done_total a).2)
    ∧ (a ∈ items → (a ∈ filter_incomplete items ↔ a ∉ filter_complete items)) := by
  obtain ⟨hle, htot⟩ := calc_done_total_facts a
  have hcomp : a ∈ filter_complete items
      ↔ a ∈ items ∧ (calc_done_total a).1 = 7 ∧ (calc_done_total a).2 = 7 := by
    unfold filter_complete
    rw [List.mem_filter]
    constructor
    · intro ⟨h1, h2⟩
      have h3 : (calc_done_total a).1 = (calc_done_total a).2 := by simpa using h2
      exact ⟨h1, htot ▸ h3, htot⟩
    · intro ⟨h1, h2, h3⟩
      exact ⟨h1, by simp [h2, h3]⟩
  have hinc : a ∈ filter_incomplete items
      ↔ a ∈ items ∧ (calc_done_total a).1 < (calc_done_total a).2 := by
    unfold filter_incomplete
    rw [List.mem_filter]
    constructor
    · intro ⟨h1, h2⟩
      exact ⟨h1, by simpa using h2⟩
    · intro ⟨h1, h2⟩
      exact ⟨h1, by simpa using h2⟩
  refine ⟨hcomp, hinc, fun ha => ?_⟩
  rw [hcomp, hinc]
  constructor
  · intro ⟨_, h2⟩ ⟨_, h3, h4⟩
    omega
  · intro h
    refine ⟨ha, ?_⟩
    by_contra hlt
    exact h ⟨ha, by omega, htot⟩

/-- A topic with all seven steps done. -/
def exTopicDone : TopicProgress :=
  { id := "d", label := "D", order := 1, global_steps := [],
    variants := [("dikey", COLUMN_STEPS.map (fun p => (p.1, true)))] }

/-- Witness for C8 at a concrete two-item list: the fully done topic sits
in the complete-only selection, the untouched one in the incomplete-only
selection. -/
theorem claim_C8_witness :
    exTopicDone ∈ filter_complete [exTopicDone, exTopicOrd1]
    ∧ exTopicOrd1 ∈ filter_incomplete [exTopicDone, exTopicOrd1] := by
  obtain ⟨h1, -, -⟩ := claim_C8_filters [exTopicDone, exTopicOrd1] exTopicDone
  obtain ⟨-, h2, -⟩ := claim_C8_filters [exTopicDone, exTopicOrd1] exTopicOrd1
  exact ⟨h1.mpr ⟨by decide, by decide, by decide⟩, h2.mpr ⟨by decide, by decide⟩⟩
